import Mathlib

/-!
Verification of `StatsArray.h` (sorted dynamic array of numbers with a
descriptive-statistics engine). The element type `double` is modelled by `ℚ`
(every stored value is finite; `ℚ` is the exact-arithmetic idealisation of the
extended-precision accumulators the code uses). The C library `sqrt` is kept
as an abstract parameter `sqrtQ : ℚ → ℚ` in the statistics whose claimed
properties do not depend on its value; in `kurtosis`/`kurtosisExcess` the
square root is eliminated exactly (only even powers of `s` occur there).
-/

namespace StatsArray

/-- The error taxonomy of the program: exactly the two exception classes
declared in `StatsArray.h` (`DatasetEmptyException`, `InsufficientDataException`). -/
inductive Err where
  | datasetEmpty : Err
  | insufficientData : Err
deriving DecidableEq, Repr

/-- Decidable equality for results, so that concrete runs of the embedded
operations can be checked by `decide`. -/
instance {ε α : Type} [DecidableEq ε] [DecidableEq α] :
    DecidableEq (Except ε α)
  | .error a, .error b =>
    if h : a = b then .isTrue (by rw [h]) else .isFalse (by simp [h])
  | .error _, .ok _ => .isFalse (by simp)
  | .ok _, .error _ => .isFalse (by simp)
  | .ok a, .ok b =>
    if h : a = b then .isTrue (by rw [h]) else .isFalse (by simp [h])

/-- Embeds `StatsArray::requireSize`: throws `DatasetEmptyException` when the
buffer is empty, `InsufficientDataException` when `0 < size < need`. -/
def requireSize (need : ℕ) (l : List ℚ) : Except Err Unit :=
  if l.length = 0 then .error .datasetEmpty
  else if l.length < need then .error .insufficientData
  else .ok ()

/-- Embeds the loop of `StatsArray::lowerBound`: binary search over the index
interval `[L, R)` for the first position whose element is not `< x`. The
first argument is fuel bounding the number of iterations (the interval width
shrinks every iteration, so any fuel of at least `R - L` is enough); it keeps
the recursion structural. -/
def lbAux (l : List ℚ) (x : ℚ) : ℕ → ℕ → ℕ → ℕ
  | 0, L, _ => L
  | fuel + 1, L, R =>
    if L < R then
      let M := (L + R) / 2
      if l.getD M 0 < x then lbAux l x fuel (M + 1) R else lbAux l x fuel L M
    else L

/-- Embeds `StatsArray::lowerBound`: first index `i` in `[0, used]` with
`_data[i] >= x`. -/
def lowerBound (l : List ℚ) (x : ℚ) : ℕ := lbAux l x l.length 0 l.length

/-- Embeds `StatsArray::insertAt` on the element sequence: shift the tail
`[pos, used)` one slot right and place `x` at `pos`. -/
def insertAtList (l : List ℚ) (pos : ℕ) (x : ℚ) : List ℚ :=
  l.take pos ++ x :: l.drop pos

/-- Embeds `StatsArray::eraseAt` on the element sequence: shift
`[idx+1, used)` one slot left and decrement the length. -/
def eraseAtList (l : List ℚ) (idx : ℕ) : List ℚ :=
  l.take idx ++ l.drop (idx + 1)

/-- Embeds the `while` loop of `StatsArray::eraseValue`; the fuel argument is
`count - removed`, which strictly decreases on every iteration. Returns the
remaining sequence and the number of elements removed. -/
def eraseLoop (v : ℚ) (pos : ℕ) : List ℚ → ℕ → List ℚ × ℕ
  | l, 0 => (l, 0)
  | l, c + 1 =>
    if pos < l.length ∧ l.getD pos 0 = v then
      let p := eraseLoop v pos (eraseAtList l pos) c
      (p.1, p.2 + 1)
    else (l, 0)

/-- Embeds `StatsArray::eraseValue` on the element sequence. -/
def eraseValueList (l : List ℚ) (v : ℚ) (count : ℕ) : List ℚ × ℕ :=
  eraseLoop v (lowerBound l v) l count

/-- The state of a `StatsArray` object: the active elements `_data[0.._used)`
and the capacity `_cap`. -/
structure Buffer where
  data : List ℚ
  cap : ℕ
deriving DecidableEq, Repr

/-- Embeds the default constructor `StatsArray()`: no storage, `_used = _cap = 0`. -/
def Buffer.empty : Buffer := ⟨[], 0⟩

/-- Embeds the constructor `StatsArray(cap0)`: empty, capacity `cap0` when
positive, otherwise 8. -/
def Buffer.mkWithCap (cap0 : ℕ) : Buffer := ⟨[], if 0 < cap0 then cap0 else 8⟩

/-- Embeds `StatsArray::growIfNeeded`: when full, reallocate with capacity 8
(when the old capacity is 0) or twice the old capacity, copying the elements. -/
def growIfNeeded (b : Buffer) : Buffer :=
  if b.data.length < b.cap then b
  else ⟨b.data, if b.cap = 0 then 8 else b.cap * 2⟩

/-- Embeds `StatsArray::insert`: compute the lower-bound position, grow if
needed, place `x` there. -/
def Buffer.insert (b : Buffer) (x : ℚ) : Buffer :=
  let pos := lowerBound b.data x
  let b' := growIfNeeded b
  ⟨insertAtList b'.data pos x, b'.cap⟩

/-- Embeds `StatsArray::eraseValue` at the buffer level (capacity unchanged). -/
def Buffer.eraseValue (b : Buffer) (v : ℚ) (count : ℕ) : Buffer × ℕ :=
  let p := eraseValueList b.data v count
  (⟨p.1, b.cap⟩, p.2)

/-- Embeds `StatsArray::eraseAt` at the buffer level (capacity unchanged). -/
def Buffer.eraseAt (b : Buffer) (idx : ℕ) : Buffer :=
  ⟨eraseAtList b.data idx, b.cap⟩

/-- One mutating call of a client session. -/
inductive Op where
  | opInsert (x : ℚ) : Op
  | opEraseValue (v : ℚ) (count : ℕ) : Op
  | opEraseAt (idx : ℕ) : Op
deriving DecidableEq, Repr

/-- Applies one call to the buffer. -/
def applyOp (b : Buffer) : Op → Buffer
  | .opInsert x => b.insert x
  | .opEraseValue v c => (b.eraseValue v c).1
  | .opEraseAt i => b.eraseAt i

/-- Runs a sequence of calls from a starting buffer. -/
def runOps (b : Buffer) : List Op → Buffer
  | [] => b
  | op :: ops => runOps (applyOp b op) ops

/-- The call preconditions named by the claim: every `eraseValue` has
`count >= 1` and every `eraseAt` index is in range at its point in the
sequence (`insert` arguments are finite by the choice of `ℚ`). -/
def validOps (b : Buffer) : List Op → Bool
  | [] => true
  | op :: ops =>
    (match op with
      | .opInsert _ => true
      | .opEraseValue _ c => decide (1 ≤ c)
      | .opEraseAt i => decide (i < b.data.length)) && validOps (applyOp b op) ops

/-- Embeds the accumulation loop of `StatsArray::sum` (the extended-precision
accumulator is exact here). -/
def sumVal (l : List ℚ) : ℚ := l.foldl (fun s x => s + x) 0

/-- Value computed by `StatsArray::mean` after its size check: `sum() / used`. -/
def meanVal (l : List ℚ) : ℚ := sumVal l / (l.length : ℚ)

/-- Value computed by `StatsArray::median` after its size check. -/
def medianVal (l : List ℚ) : ℚ :=
  let n := l.length
  let m := n / 2
  if n % 2 = 1 then l.getD m 0 else (l.getD (m - 1) 0 + l.getD m 0) / 2

/-- Embeds `StatsArray::min`: the first element of the sorted buffer. -/
def min (l : List ℚ) : Except Err ℚ := do
  requireSize 1 l
  pure (l.getD 0 0)

/-- Embeds `StatsArray::max`: the last element of the sorted buffer. -/
def max (l : List ℚ) : Except Err ℚ := do
  requireSize 1 l
  pure (l.getD (l.length - 1) 0)

/-- Embeds `StatsArray::range`: last element minus first element. -/
def range (l : List ℚ) : Except Err ℚ := do
  requireSize 1 l
  pure (l.getD (l.length - 1) 0 - l.getD 0 0)

/-- Embeds `StatsArray::sum`. -/
def sum (l : List ℚ) : Except Err ℚ := do
  requireSize 1 l
  pure (sumVal l)

/-- Embeds `StatsArray::mean`. -/
def mean (l : List ℚ) : Except Err ℚ := do
  requireSize 1 l
  pure (meanVal l)

/-- Embeds `StatsArray::median`. -/
def median (l : List ℚ) : Except Err ℚ := do
  requireSize 1 l
  pure (medianVal l)

/-- Embeds the run-scanning loop pattern shared by `StatsArray::modes` and
`StatsArray::frequencyTable`: the inner `while` advances `j` over the run of
values equal to `_data[i]`, yielding the run's value and its length `j - i`.
The fuel argument bounds the number of outer iterations (each one consumes at
least one element, so any fuel of at least `l.length` is enough); it keeps
the recursion structural. -/
def runsAux : ℕ → List ℚ → List (ℚ × ℕ)
  | 0, _ => []
  | _, [] => []
  | fuel + 1, x :: xs =>
    (x, (xs.takeWhile (fun y => y == x)).length + 1) ::
      runsAux fuel (xs.dropWhile (fun y => y == x))

/-- The list of `(value, run length)` pairs of the equal-value runs, in order. -/
def runs (l : List ℚ) : List (ℚ × ℕ) := runsAux l.length l

/-- Embeds `StatsArray::modes`: the best run length over the sorted buffer,
then all values whose run length equals it, or the empty list when the best
run length is at most 1. -/
def modes (l : List ℚ) : Except Err (List ℚ) := do
  requireSize 1 l
  let rs := runs l
  let best : ℕ := rs.foldl (fun b p => if b < p.2 then p.2 else b) 0
  if best ≤ 1 then pure []
  else pure ((rs.filter (fun p => p.2 == best)).map Prod.fst)

/-- Embeds `StatsArray::variance` (`sample` selects the `n - 1` denominator;
the code guards the division on `denom > 0`). -/
def variance (sample : Bool) (l : List ℚ) : Except Err ℚ := do
  if sample then requireSize 2 l else requireSize 1 l
  let mu := meanVal l
  let ss := l.foldl (fun s x => s + (x - mu) * (x - mu)) 0
  let denom : ℚ := if sample then ((l.length - 1 : ℕ) : ℚ) else (l.length : ℚ)
  pure (if 0 < denom then ss / denom else 0)

/-- Embeds `StatsArray::stdev`; `sqrtQ` stands for the C `sqrt` routine,
kept abstract because no claim depends on its value. -/
def stdev (sqrtQ : ℚ → ℚ) (sample : Bool) (l : List ℚ) : Except Err ℚ := do
  let v ← variance sample l
  pure (sqrtQ v)

/-- Embeds `StatsArray::midrange`: `(min() + max()) / 2`. -/
def midrange (l : List ℚ) : Except Err ℚ := do
  requireSize 1 l
  let mn ← min l
  let mx ← max l
  pure ((mn + mx) / 2)

/-- Embeds the local helper `H::subMed` of `StatsArray::quartiles`: the median
of the closed index range `[L, R]` of the buffer. -/
def subMed (l : List ℚ) (L R : ℕ) : ℚ :=
  let len := R - L + 1
  let mid := L + len / 2
  if len % 2 = 1 then l.getD mid 0 else (l.getD (mid - 1) 0 + l.getD mid 0) / 2

/-- Embeds `StatsArray::quartiles` (Tukey method, split at `m = n / 2`). -/
def quartiles (l : List ℚ) : Except Err (ℚ × ℚ × ℚ) := do
  requireSize 2 l
  let q2 ← median l
  let n := l.length
  let m := n / 2
  if n % 2 = 0 then pure (subMed l 0 (m - 1), q2, subMed l m (n - 1))
  else pure (subMed l 0 (m - 1), q2, subMed l (m + 1) (n - 1))

/-- Embeds `StatsArray::iqr`: `Q3 - Q1`. -/
def iqr (l : List ℚ) : Except Err ℚ := do
  requireSize 2 l
  let q ← quartiles l
  pure (q.2.2 - q.1)

/-- Embeds `StatsArray::outliers`: values outside `[Q1 - 1.5 IQR, Q3 + 1.5 IQR]`. -/
def outliers (l : List ℚ) : Except Err (List ℚ) := do
  requireSize 2 l
  let q ← quartiles l
  let w := 3 / 2 * (q.2.2 - q.1)
  pure (l.filter (fun x => x < q.1 - w || q.2.2 + w < x))

/-- Embeds `StatsArray::sumSquares`. -/
def sumSquares (l : List ℚ) : Except Err ℚ := do
  requireSize 1 l
  pure (l.foldl (fun s x => s + x * x) 0)

/-- Embeds `StatsArray::meanAbsDeviation`. -/
def meanAbsDeviation (l : List ℚ) : Except Err ℚ := do
  requireSize 1 l
  let mu := meanVal l
  pure ((l.foldl (fun s x => s + |x - mu|) 0) / (l.length : ℚ))

/-- Embeds `StatsArray::rms`: `sqrt(sumSquares() / n)`. -/
def rms (sqrtQ : ℚ → ℚ) (l : List ℚ) : Except Err ℚ := do
  requireSize 1 l
  let s ← sumSquares l
  pure (sqrtQ (s / (l.length : ℚ)))

/-- Embeds `StatsArray::sem`: `stdev(sample) / sqrt(n)`. -/
def sem (sqrtQ : ℚ → ℚ) (sample : Bool) (l : List ℚ) : Except Err ℚ := do
  if sample then requireSize 2 l else requireSize 1 l
  let sd ← stdev sqrtQ sample l
  pure (sd / sqrtQ (l.length : ℚ))

/-- Embeds `StatsArray::skewness` (bias-corrected when `sample`). -/
def skewness (sqrtQ : ℚ → ℚ) (sample : Bool) (l : List ℚ) : Except Err ℚ := do
  if sample then requireSize 3 l else requireSize 1 l
  let n : ℚ := (l.length : ℚ)
  let mu := meanVal l
  let m2 := l.foldl (fun s x => s + (x - mu) * (x - mu)) 0
  let m3 := l.foldl (fun s x => s + (x - mu) * (x - mu) * (x - mu)) 0
  if sample then
    let s := sqrtQ (m2 / (n - 1))
    let g1 := (m3 / n) / (s * s * s)
    pure (sqrtQ (n * (n - 1)) / (n - 2) * g1)
  else
    let s := sqrtQ (m2 / n)
    pure ((m3 / n) / (s * s * s))

/-- Embeds `StatsArray::kurtosis`. The C++ computes `s = sqrt(s2/(n-1))`,
returns 0 when `s == 0`, and otherwise accumulates `z^4 = ((x-mu)/s)^4`;
since `z^4 = (x-mu)^4 / (s2/(n-1))^2` exactly and `s == 0` holds exactly when
`s2/(n-1) == 0`, the square root is eliminated and the computation is
rational. -/
def kurtosis (l : List ℚ) : Except Err ℚ := do
  requireSize 4 l
  let n : ℚ := (l.length : ℚ)
  let mu := meanVal l
  let s2 := l.foldl (fun s x => s + (x - mu) * (x - mu)) 0
  if s2 / (n - 1) = 0 then pure 0
  else
    let s4 := (s2 / (n - 1)) * (s2 / (n - 1))
    let sumZ4 := l.foldl
      (fun s x => s + (x - mu) * (x - mu) * (x - mu) * (x - mu) / s4) 0
    pure (n * (n + 1) / ((n - 1) * (n - 2) * (n - 3)) * sumZ4)

/-- Embeds `StatsArray::kurtosisExcess`: the same computation as `kurtosis`
followed by subtraction of `3(n-1)^2 / ((n-2)(n-3))`, with the same early
return of 0 when `s == 0`. -/
def kurtosisExcess (l : List ℚ) : Except Err ℚ := do
  requireSize 4 l
  let n : ℚ := (l.length : ℚ)
  let mu := meanVal l
  let s2 := l.foldl (fun s x => s + (x - mu) * (x - mu)) 0
  if s2 / (n - 1) = 0 then pure 0
  else
    let s4 := (s2 / (n - 1)) * (s2 / (n - 1))
    let sumZ4 := l.foldl
      (fun s x => s + (x - mu) * (x - mu) * (x - mu) * (x - mu) / s4) 0
    let term1 := n * (n + 1) / ((n - 1) * (n - 2) * (n - 3)) * sumZ4
    let term2 := 3 * (n - 1) * (n - 1) / ((n - 2) * (n - 3))
    pure (term1 - term2)

/-- Embeds `StatsArray::coefficientOfVariation`: after the size check, a zero
mean throws `InsufficientDataException`, otherwise `stdev(sample) / mean`. -/
def coefficientOfVariation (sqrtQ : ℚ → ℚ) (sample : Bool) (l : List ℚ) :
    Except Err ℚ := do
  requireSize 1 l
  let mu := meanVal l
  if mu = 0 then Except.error .insufficientData
  else do
    let sd ← stdev sqrtQ sample l
    pure (sd / mu)

/-- Embeds `StatsArray::relativeStdDeviation`: `100 * coefficientOfVariation`. -/
def relativeStdDeviation (sqrtQ : ℚ → ℚ) (sample : Bool) (l : List ℚ) :
    Except Err ℚ := do
  let c ← coefficientOfVariation sqrtQ sample l
  pure (100 * c)

/-- Embeds `StatsArray::frequencyTable`: one `(value, count)` pair per
equal-value run of the sorted buffer. -/
def frequencyTable (l : List ℚ) : Except Err (List (ℚ × ℕ)) := do
  requireSize 1 l
  pure (runs l)

/-- Modelled from the spec's words (the odd/even median rule used to state the
quartile claim): middle element when the length is odd, average of the two
central elements when it is even. -/
def specMedian (l : List ℚ) : ℚ :=
  let n := l.length
  let m := n / 2
  if n % 2 = 1 then l.getD m 0 else (l.getD (m - 1) 0 + l.getD m 0) / 2

/-! Helper lemmas about the error plumbing. -/

@[simp]
theorem ok_bind {α β : Type} (a : α) (f : α → Except Err β) :
    (Except.ok a : Except Err α) >>= f = f a := rfl

@[simp]
theorem error_bind {α β : Type} (e : Err) (f : α → Except Err β) :
    (Except.error e : Except Err α) >>= f = Except.error e := rfl

theorem requireSize_ok {need : ℕ} {l : List ℚ} (h0 : l ≠ []) (h : need ≤ l.length) :
    requireSize need l = .ok () := by
  have h1 : l.length ≠ 0 := fun hh => h0 (List.length_eq_zero.mp hh)
  simp only [requireSize, if_neg h1, if_neg (Nat.not_lt.mpr h)]

/-- C8: every statistic operation of the engine, called on a buffer of size 0,
raises the empty-dataset error (`DatasetEmptyException`), regardless of that
statistic's stated minimum size, and for both sample modes and any square
root routine. -/
theorem stats_on_empty_raise_datasetEmpty (sqrtQ : ℚ → ℚ) (sample : Bool) :
    min [] = .error .datasetEmpty ∧
    max [] = .error .datasetEmpty ∧
    range [] = .error .datasetEmpty ∧
    sum [] = .error .datasetEmpty ∧
    mean [] = .error .datasetEmpty ∧
    median [] = .error .datasetEmpty ∧
    modes [] = .error .datasetEmpty ∧
    variance sample [] = .error .datasetEmpty ∧
    stdev sqrtQ sample [] = .error .datasetEmpty ∧
    midrange [] = .error .datasetEmpty ∧
    quartiles [] = .error .datasetEmpty ∧
    iqr [] = .error .datasetEmpty ∧
    outliers [] = .error .datasetEmpty ∧
    sumSquares [] = .error .datasetEmpty ∧
    meanAbsDeviation [] = .error .datasetEmpty ∧
    rms sqrtQ [] = .error .datasetEmpty ∧
    sem sqrtQ sample [] = .error .datasetEmpty ∧
    skewness sqrtQ sample [] = .error .datasetEmpty ∧
    kurtosis [] = .error .datasetEmpty ∧
    kurtosisExcess [] = .error .datasetEmpty ∧
    coefficientOfVariation sqrtQ sample [] = .error .datasetEmpty ∧
    relativeStdDeviation sqrtQ sample [] = .error .datasetEmpty ∧
    frequencyTable [] = .error .datasetEmpty := by
  cases sample <;>
    exact ⟨rfl, rfl, rfl, rfl, rfl, rfl, rfl, rfl, rfl, rfl, rfl, rfl, rfl, rfl, rfl,
      rfl, rfl, rfl, rfl, rfl, rfl, rfl, rfl⟩

/-- C3 (counterexample to the claim as stated): on the dataset {-5, 5}, whose mean is
exactly 0, `coefficientOfVariation` and `relativeStdDeviation` raise the
insufficient-data error (`InsufficientDataException`), not an error distinct
from it: the program has no separate undefined-result error type. -/
theorem cov_error_type_counterexample :
    coefficientOfVariation id true [-5, 5] = .error .insufficientData ∧
    relativeStdDeviation id true [-5, 5] = .error .insufficientData := by
  constructor <;>
    norm_num [coefficientOfVariation, relativeStdDeviation, requireSize, meanVal, sumVal]

/-- C3 (amended): on every non-empty buffer whose mean is exactly 0,
`coefficientOfVariation` (and `relativeStdDeviation`) raises the
insufficient-data error (`InsufficientDataException`, message "Coefficient of
Variation undefined when mean is 0."); the program defines no separate
undefined-result error type. -/
theorem cov_zero_mean_insufficientData (sqrtQ : ℚ → ℚ) (sample : Bool) (l : List ℚ)
    (h0 : l ≠ []) (hm : meanVal l = 0) :
    coefficientOfVariation sqrtQ sample l = .error .insufficientData ∧
    relativeStdDeviation sqrtQ sample l = .error .insufficientData := by
  have h1 : requireSize 1 l = .ok () :=
    requireSize_ok h0 (by have := List.length_pos.mpr h0; omega)
  constructor <;> simp [coefficientOfVariation, relativeStdDeviation, h1, hm]

/-- Witness for C3 (amended) at the spec's own example dataset {-5, 5}. -/
theorem cov_zero_mean_insufficientData_witness :
    (([-5, 5] : List ℚ) ≠ [] ∧ meanVal [-5, 5] = 0) ∧
    coefficientOfVariation id true [-5, 5] = .error .insufficientData ∧
    relativeStdDeviation id true [-5, 5] = .error .insufficientData :=
  ⟨⟨by simp, by norm_num [meanVal, sumVal]⟩,
    cov_zero_mean_insufficientData id true [-5, 5] (by simp) (by norm_num [meanVal, sumVal])⟩

/-- C4 (evaluation at the failing input): a buffer constructed with explicit
initial capacity 1 holds one element at capacity 1; the next insert triggers
a growth, after which the capacity is 2, not max(8, 2 x 1) = 8 as the growth
policy states (and as `growIfNeeded`'s own comment "capacity >= 8 ... when
growth occurs" states). The elements are preserved in order. -/
theorem growth_policy_failing_input :
    ((Buffer.mkWithCap 1).insert 0).cap = 1 ∧
    ((Buffer.mkWithCap 1).insert 0).data = [0] ∧
    (((Buffer.mkWithCap 1).insert 0).insert 1).cap = 2 ∧
    (((Buffer.mkWithCap 1).insert 0).insert 1).data = [0, 1] ∧
    (((Buffer.mkWithCap 1).insert 0).insert 1).cap ≠
      Nat.max 8 (2 * ((Buffer.mkWithCap 1).insert 0).cap) := by
  decide

/-- C5 (counterexample): on the all-equal dataset {1, 1, 1, 1} (n = 4) both
`kurtosis` and `kurtosisExcess` return 0 through the early `s == 0` exit, so
`kurtosisExcess` does not equal `kurtosis` minus 3(n-1)^2/((n-2)(n-3)) there:
that difference would be 0 - 27/2. -/
theorem kurtosisExcess_corr_counterexample :
    kurtosis [1, 1, 1, 1] = .ok 0 ∧
    kurtosisExcess [1, 1, 1, 1] = .ok 0 ∧
    (0 : ℚ) ≠ 0 - 3 * ((4 : ℚ) - 1) * ((4 : ℚ) - 1) /
      (((4 : ℚ) - 2) * ((4 : ℚ) - 3)) := by
  refine ⟨?_, ?_, by norm_num⟩ <;>
    norm_num [kurtosis, kurtosisExcess, requireSize, meanVal, sumVal]

/-! Helper lemmas about the accumulation loops. -/

theorem foldl_add_sum (f : ℚ → ℚ) : ∀ (l : List ℚ) (a : ℚ),
    l.foldl (fun s x => s + f x) a = a + (l.map f).sum
  | [], a => by simp
  | x :: xs, a => by
    rw [List.foldl_cons, foldl_add_sum f xs (a + f x), List.map_cons, List.sum_cons]
    ring

theorem sumVal_eq_sum (l : List ℚ) : sumVal l = l.sum := by
  rw [sumVal, foldl_add_sum]
  simp

theorem sum_nonneg_eq_zero : ∀ (L : List ℚ), (∀ x ∈ L, 0 ≤ x) → L.sum = 0 →
    ∀ x ∈ L, x = 0
  | [], _, _, x, hx => by simp at hx
  | y :: ys, hpos, hsum, x, hx => by
    have hy : 0 ≤ y := hpos y (by simp)
    have hys : 0 ≤ ys.sum := List.sum_nonneg (fun z hz => hpos z (by simp [hz]))
    have hsum' : y + ys.sum = 0 := by simpa using hsum
    rcases List.mem_cons.mp hx with rfl | hx'
    · linarith
    · exact sum_nonneg_eq_zero ys (fun z hz => hpos z (by simp [hz])) (by linarith) x hx'

theorem meanVal_all_eq {l : List ℚ} {c : ℚ} (h0 : l ≠ []) (hall : ∀ x ∈ l, x = c) :
    meanVal l = c := by
  have hn : (l.length : ℚ) ≠ 0 :=
    Nat.cast_ne_zero.mpr (by have := List.length_pos.mpr h0; omega)
  have hsum : sumVal l = (l.length : ℚ) * c := by
    rw [sumVal_eq_sum]
    conv_lhs => rw [List.eq_replicate_of_mem hall]
    rw [List.sum_replicate, nsmul_eq_mul]
  rw [meanVal, hsum, mul_div_cancel_left₀ _ hn]

/-- C10: on every buffer of size at least 4 in which all elements are equal
(sample standard deviation 0), both `kurtosis` and `kurtosisExcess` return
exactly 0 through the early `s == 0` exit; in particular `kurtosisExcess`
does not subtract the 3(n-1)^2/((n-2)(n-3)) term in this case. -/
theorem kurtosis_all_equal_zero (l : List ℚ) (c : ℚ) (h4 : 4 ≤ l.length)
    (hall : ∀ x ∈ l, x = c) :
    kurtosis l = .ok 0 ∧ kurtosisExcess l = .ok 0 := by
  have h0 : l ≠ [] := by
    intro h
    rw [h] at h4
    simp at h4
  have h1 : requireSize 4 l = .ok () := requireSize_ok h0 h4
  have hmu : meanVal l = c := meanVal_all_eq h0 hall
  have hs2 : l.foldl (fun s x => s + (x - meanVal l) * (x - meanVal l)) 0 = 0 := by
    rw [foldl_add_sum, zero_add]
    refine List.sum_eq_zero (fun z hz => ?_)
    rcases List.mem_map.mp hz with ⟨y, hy, rfl⟩
    rw [hmu, hall y hy]
    ring
  constructor <;> simp [kurtosis, kurtosisExcess, h1, hs2]

/-- C5 (amended): on every buffer of size at least 4 whose elements are not
all equal (so the sample standard deviation is nonzero), `kurtosisExcess`
equals `kurtosis` minus 3(n-1)^2 / ((n-2)(n-3)); when all elements are equal
both return 0 instead (see the counterexample). -/
theorem kurtosisExcess_eq_kurtosis_sub_corr (l : List ℚ) (a b : ℚ)
    (h4 : 4 ≤ l.length) (ha : a ∈ l) (hb : b ∈ l) (hab : a ≠ b) :
    kurtosisExcess l = Except.map
      (fun k => k - 3 * ((l.length : ℚ) - 1) * ((l.length : ℚ) - 1) /
        (((l.length : ℚ) - 2) * ((l.length : ℚ) - 3))) (kurtosis l) := by
  have h0 : l ≠ [] := fun h => hab (by simp [h] at ha)
  have h1 : requireSize 4 l = .ok () := requireSize_ok h0 h4
  have h4q : (4 : ℚ) ≤ (l.length : ℚ) := by exact_mod_cast h4
  have hs2ne : l.foldl (fun s x => s + (x - meanVal l) * (x - meanVal l)) 0 ≠ 0 := by
    rw [foldl_add_sum, zero_add]
    intro hzero
    have hterms := sum_nonneg_eq_zero _
      (fun z hz => by
        rcases List.mem_map.mp hz with ⟨y, _, rfl⟩
        exact mul_self_nonneg _) hzero
    have hall : ∀ y ∈ l, y = meanVal l := fun y hy => by
      have h := hterms _ (List.mem_map.mpr ⟨y, hy, rfl⟩)
      have := mul_self_eq_zero.mp h
      linarith [sub_eq_zero.mp this]
    exact hab ((hall a ha).trans (hall b hb).symm)
  have hn1 : ((l.length : ℚ) - 1) ≠ 0 := by intro hh; linarith
  have hguard :
      ¬(l.foldl (fun s x => s + (x - meanVal l) * (x - meanVal l)) 0 /
        ((l.length : ℚ) - 1) = 0) := by
    rw [div_eq_zero_iff]
    push_neg
    exact ⟨hs2ne, hn1⟩
  simp only [kurtosis, kurtosisExcess, h1, ok_bind, if_neg hguard, Except.map,
    pure, Except.pure]

/-- Witness for C5 (amended) on the dataset {0, 0, 0, 1}. -/
theorem kurtosisExcess_eq_kurtosis_sub_corr_witness :
    (4 ≤ ([0, 0, 0, 1] : List ℚ).length ∧ (0 : ℚ) ∈ ([0, 0, 0, 1] : List ℚ) ∧
      (1 : ℚ) ∈ ([0, 0, 0, 1] : List ℚ) ∧ (0 : ℚ) ≠ 1) ∧
    kurtosisExcess [0, 0, 0, 1] = Except.map
      (fun k => k - 3 * ((([0, 0, 0, 1] : List ℚ).length : ℚ) - 1) *
          ((([0, 0, 0, 1] : List ℚ).length : ℚ) - 1) /
        (((([0, 0, 0, 1] : List ℚ).length : ℚ) - 2) *
          ((([0, 0, 0, 1] : List ℚ).length : ℚ) - 3))) (kurtosis [0, 0, 0, 1]) :=
  ⟨⟨by simp, by simp, by simp, by norm_num⟩,
    kurtosisExcess_eq_kurtosis_sub_corr [0, 0, 0, 1] 0 1 (by simp) (by simp) (by simp)
      (by norm_num)⟩

/-- Witness for C10 on the dataset {1, 1, 1, 1}. -/
theorem kurtosis_all_equal_zero_witness :
    (4 ≤ ([1, 1, 1, 1] : List ℚ).length ∧ (∀ x ∈ ([1, 1, 1, 1] : List ℚ), x = 1)) ∧
    kurtosis [1, 1, 1, 1] = .ok 0 ∧ kurtosisExcess [1, 1, 1, 1] = .ok 0 :=
  ⟨⟨by simp, by simp⟩,
    kurtosis_all_equal_zero [1, 1, 1, 1] 1 (by simp) (by simp)⟩

/-! Helper lemmas about indexed reads of take and drop, for the quartile claim. -/

theorem getD_take {l : List ℚ} {k i : ℕ} (h : i < k) :
    (l.take k).getD i 0 = l.getD i 0 := by
  simp [List.getD_eq_getElem?_getD, List.getElem?_take_of_lt h]

theorem getD_drop (l : List ℚ) (k i : ℕ) :
    (l.drop k).getD i 0 = l.getD (k + i) 0 := by
  simp [List.getD_eq_getElem?_getD, List.getElem?_drop]

theorem subMed_take (l : List ℚ) (m : ℕ) (h1 : 1 ≤ m) (hm : m ≤ l.length) :
    subMed l 0 (m - 1) = specMedian (l.take m) := by
  have hlen : (l.take m).length = m := by rw [List.length_take, Nat.min_eq_left hm]
  have he : m - 1 - 0 + 1 = m := by omega
  simp only [subMed, specMedian, hlen, he, Nat.zero_add]
  by_cases hp : m % 2 = 1
  · rw [if_pos hp, if_pos hp, getD_take (show m / 2 < m by omega)]
  · rw [if_neg hp, if_neg hp, getD_take (show m / 2 < m by omega),
      getD_take (show m / 2 - 1 < m by omega)]

theorem subMed_drop (l : List ℚ) (L : ℕ) (h : L < l.length) :
    subMed l L (l.length - 1) = specMedian (l.drop L) := by
  have hlen : (l.drop L).length = l.length - L := by rw [List.length_drop]
  have he : l.length - 1 - L + 1 = l.length - L := by omega
  simp only [subMed, specMedian, hlen, he]
  by_cases hp : (l.length - L) % 2 = 1
  · rw [if_pos hp, if_pos hp, getD_drop]
  · rw [if_neg hp, if_neg hp, getD_drop, getD_drop]
    have hx : L + (l.length - L) / 2 - 1 = L + ((l.length - L) / 2 - 1) := by omega
    rw [hx]

/-- C2: for every buffer with size n at least 2, `quartiles` returns
(Q1, Q2, Q3) with Q2 the overall median, Q1 the median of the lower half
`[0, m)` (m = n/2), and Q3 the median of the upper half (`[m, n)` when n is
even, `[m+1, n)` when n is odd, excluding the central element), each half
median computed by the same odd/even rule with no interpolation between
ranks. -/
theorem quartiles_tukey (l : List ℚ) (h2 : 2 ≤ l.length) :
    quartiles l = .ok
      (specMedian (l.take (l.length / 2)),
       specMedian l,
       specMedian (if l.length % 2 = 0 then l.drop (l.length / 2)
         else l.drop (l.length / 2 + 1))) := by
  have h0 : l ≠ [] := by
    intro h
    rw [h] at h2
    simp at h2
  have hr2 : requireSize 2 l = .ok () := requireSize_ok h0 h2
  have hr1 : requireSize 1 l = .ok () := requireSize_ok h0 (by omega)
  have hq1 : subMed l 0 (l.length / 2 - 1) = specMedian (l.take (l.length / 2)) :=
    subMed_take l (l.length / 2) (by omega) (by omega)
  by_cases hp : l.length % 2 = 0
  · have hq3 : subMed l (l.length / 2) (l.length - 1) =
        specMedian (l.drop (l.length / 2)) :=
      subMed_drop l (l.length / 2) (by omega)
    simp only [quartiles, median, hr2, hr1, ok_bind, pure, Except.pure, hp,
      if_pos hp, if_true, hq1, hq3]
    rfl
  · have hq3 : subMed l (l.length / 2 + 1) (l.length - 1) =
        specMedian (l.drop (l.length / 2 + 1)) :=
      subMed_drop l (l.length / 2 + 1) (by omega)
    simp only [quartiles, median, hr2, hr1, ok_bind, pure, Except.pure,
      if_neg hp, hq1, hq3]
    rfl

/-- Witness for C2 on the dataset {1, 2}. -/
theorem quartiles_tukey_witness :
    2 ≤ ([1, 2] : List ℚ).length ∧
    quartiles [1, 2] = .ok
      (specMedian (([1, 2] : List ℚ).take (([1, 2] : List ℚ).length / 2)),
       specMedian ([1, 2] : List ℚ),
       specMedian (if ([1, 2] : List ℚ).length % 2 = 0
         then ([1, 2] : List ℚ).drop (([1, 2] : List ℚ).length / 2)
         else ([1, 2] : List ℚ).drop (([1, 2] : List ℚ).length / 2 + 1))) :=
  ⟨by simp, quartiles_tukey [1, 2] (by simp)⟩

/-! Helper lemmas about equal-value runs of a sorted buffer. -/

theorem dropWhile_gt {x : ℚ} : ∀ {xs : List ℚ}, (x :: xs).Sorted (· ≤ ·) →
    ∀ y ∈ xs.dropWhile (fun y => y == x), x < y
  | [], _, y, hy => by simp at hy
  | z :: zs, hs, y, hy => by
    by_cases hz : z = x
    · rw [List.dropWhile_cons_of_pos (by simp [hz])] at hy
      have hs' : (x :: zs).Sorted (· ≤ ·) := by
        rcases List.sorted_cons.mp hs with ⟨hx, hz'⟩
        exact List.sorted_cons.mpr ⟨fun b hb => hx b (by simp [hb]), hz'.of_cons⟩
      exact dropWhile_gt hs' y hy
    · rw [List.dropWhile_cons_of_neg (by simp [hz])] at hy
      have hxz : x < z :=
        lt_of_le_of_ne (List.rel_of_sorted_cons hs z (by simp)) (fun h => hz h.symm)
      rcases List.mem_cons.mp hy with rfl | hy'
      · exact hxz
      · exact lt_of_lt_of_le hxz (List.rel_of_sorted_cons hs.of_cons y hy')

theorem sorted_cons_count {x : ℚ} {xs : List ℚ} (hs : (x :: xs).Sorted (· ≤ ·)) :
    (x :: xs).count x = (xs.takeWhile (fun y => y == x)).length + 1 ∧
    ∀ w, w ≠ x → (x :: xs).count w = (xs.dropWhile (fun y => y == x)).count w := by
  have hsplit : xs.takeWhile (fun y => y == x) ++ xs.dropWhile (fun y => y == x) = xs :=
    List.takeWhile_append_dropWhile _ _
  constructor
  · have htw : (xs.takeWhile (fun y => y == x)).count x =
        (xs.takeWhile (fun y => y == x)).length :=
      List.count_eq_length.mpr (fun b hb =>
        (show b = x by simpa using List.mem_takeWhile_imp hb).symm)
    have hdw : (xs.dropWhile (fun y => y == x)).count x = 0 :=
      List.count_eq_zero.mpr (fun hmem => lt_irrefl x (dropWhile_gt hs x hmem))
    have h1 : xs.count x = (xs.takeWhile (fun y => y == x)).count x +
        (xs.dropWhile (fun y => y == x)).count x := by
      conv_lhs => rw [← hsplit]
      rw [List.count_append]
    rw [List.count_cons_self, h1, htw, hdw]
  · intro w hw
    have htw : (xs.takeWhile (fun y => y == x)).count w = 0 :=
      List.count_eq_zero.mpr (fun hmem =>
        hw (by simpa using List.mem_takeWhile_imp hmem))
    have h1 : xs.count w = (xs.takeWhile (fun y => y == x)).count w +
        (xs.dropWhile (fun y => y == x)).count w := by
      conv_lhs => rw [← hsplit]
      rw [List.count_append]
    rw [List.count_cons_of_ne hw, h1, htw, Nat.zero_add]

theorem runsAux_sum : ∀ (fuel : ℕ) (l : List ℚ), l.length ≤ fuel →
    ((runsAux fuel l).map Prod.snd).sum = l.length
  | 0, l, h => by
    have : l = [] := List.length_eq_zero.mp (by omega)
    subst this
    rfl
  | fuel + 1, [], _ => rfl
  | fuel + 1, x :: xs, h => by
    have hsplit : xs.takeWhile (fun y => y == x) ++ xs.dropWhile (fun y => y == x) = xs :=
      List.takeWhile_append_dropWhile _ _
    have hlen : (xs.dropWhile (fun y => y == x)).length ≤ fuel := by
      have := (List.dropWhile_sublist (l := xs) (fun y => y == x)).length_le
      simp only [List.length_cons] at h
      omega
    have ih := runsAux_sum fuel (xs.dropWhile (fun y => y == x)) hlen
    have hl := congrArg List.length hsplit
    rw [List.length_append] at hl
    simp only [runsAux, List.map_cons, List.sum_cons, ih, List.length_cons]
    omega

theorem runsAux_fst_mem : ∀ (fuel : ℕ) (l : List ℚ), l.length ≤ fuel →
    ∀ p ∈ runsAux fuel l, p.1 ∈ l
  | 0, l, h, p, hp => by
    have : l = [] := List.length_eq_zero.mp (by omega)
    subst this
    simp [runsAux] at hp
  | fuel + 1, [], _, p, hp => by simp [runsAux] at hp
  | fuel + 1, x :: xs, h, p, hp => by
    have hlen : (xs.dropWhile (fun y => y == x)).length ≤ fuel := by
      have := (List.dropWhile_sublist (l := xs) (fun y => y == x)).length_le
      simp only [List.length_cons] at h
      omega
    simp only [runsAux, List.mem_cons] at hp
    rcases hp with rfl | hp'
    · simp
    · exact List.mem_cons_of_mem x
        ((List.dropWhile_sublist _).subset (runsAux_fst_mem fuel _ hlen p hp'))

theorem runsAux_snd_count : ∀ (fuel : ℕ) (l : List ℚ), l.length ≤ fuel →
    l.Sorted (· ≤ ·) → ∀ p ∈ runsAux fuel l, p.2 = l.count p.1
  | 0, l, h, _, p, hp => by
    have : l = [] := List.length_eq_zero.mp (by omega)
    subst this
    simp [runsAux] at hp
  | fuel + 1, [], _, _, p, hp => by simp [runsAux] at hp
  | fuel + 1, x :: xs, h, hs, p, hp => by
    have hlen : (xs.dropWhile (fun y => y == x)).length ≤ fuel := by
      have := (List.dropWhile_sublist (l := xs) (fun y => y == x)).length_le
      simp only [List.length_cons] at h
      omega
    obtain ⟨hcx, hcw⟩ := sorted_cons_count hs
    simp only [runsAux, List.mem_cons] at hp
    rcases hp with rfl | hp'
    · simpa using hcx.symm
    · have hd_sorted : (xs.dropWhile (fun y => y == x)).Sorted (· ≤ ·) :=
        List.Pairwise.sublist (List.dropWhile_sublist _) hs.of_cons
      have ih := runsAux_snd_count fuel _ hlen hd_sorted p hp'
      have hpx : p.1 ≠ x := by
        have hmem := runsAux_fst_mem fuel _ hlen p hp'
        exact ne_of_gt (dropWhile_gt hs p.1 hmem)
      rw [ih, hcw p.1 hpx]

theorem runsAux_mem_count : ∀ (fuel : ℕ) (l : List ℚ), l.length ≤ fuel →
    l.Sorted (· ≤ ·) → ∀ v ∈ l, (v, l.count v) ∈ runsAux fuel l
  | 0, l, h, _, v, hv => by
    have : l = [] := List.length_eq_zero.mp (by omega)
    subst this
    simp at hv
  | fuel + 1, [], _, _, v, hv => by simp at hv
  | fuel + 1, x :: xs, h, hs, v, hv => by
    have hsplit : xs.takeWhile (fun y => y == x) ++ xs.dropWhile (fun y => y == x) = xs :=
      List.takeWhile_append_dropWhile _ _
    have hlen : (xs.dropWhile (fun y => y == x)).length ≤ fuel := by
      have := (List.dropWhile_sublist (l := xs) (fun y => y == x)).length_le
      simp only [List.length_cons] at h
      omega
    obtain ⟨hcx, hcw⟩ := sorted_cons_count hs
    by_cases hvx : v = x
    · subst hvx
      simp only [runsAux, List.mem_cons]
      left
      rw [hcx]
    · have hvxs : v ∈ xs := by
        rcases List.mem_cons.mp hv with rfl | hv'
        · exact absurd rfl hvx
        · exact hv'
      have hvtd : v ∈ xs.takeWhile (fun y => y == x) ++ xs.dropWhile (fun y => y == x) := by
        rw [hsplit]
        exact hvxs
      have hvd : v ∈ xs.dropWhile (fun y => y == x) := by
        rcases List.mem_append.mp hvtd with hvt | hvd
        · exact absurd (by simpa using List.mem_takeWhile_imp hvt) hvx
        · exact hvd
      have hd_sorted : (xs.dropWhile (fun y => y == x)).Sorted (· ≤ ·) :=
        List.Pairwise.sublist (List.dropWhile_sublist _) hs.of_cons
      have ih := runsAux_mem_count fuel _ hlen hd_sorted v hvd
      simp only [runsAux, List.mem_cons]
      right
      rw [hcw v hvx]
      exact ih

theorem runsAux_fst_pairwise : ∀ (fuel : ℕ) (l : List ℚ), l.length ≤ fuel →
    l.Sorted (· ≤ ·) → ((runsAux fuel l).map Prod.fst).Pairwise (· < ·)
  | 0, l, h, _ => by
    have : l = [] := List.length_eq_zero.mp (by omega)
    subst this
    simp [runsAux]
  | fuel + 1, [], _, _ => by simp [runsAux]
  | fuel + 1, x :: xs, h, hs => by
    have hlen : (xs.dropWhile (fun y => y == x)).length ≤ fuel := by
      have := (List.dropWhile_sublist (l := xs) (fun y => y == x)).length_le
      simp only [List.length_cons] at h
      omega
    have hd_sorted : (xs.dropWhile (fun y => y == x)).Sorted (· ≤ ·) :=
      List.Pairwise.sublist (List.dropWhile_sublist _) hs.of_cons
    simp only [runsAux, List.map_cons]
    refine List.Pairwise.cons ?_ (runsAux_fst_pairwise fuel _ hlen hd_sorted)
    intro v hv
    rcases List.mem_map.mp hv with ⟨p, hp, rfl⟩
    exact dropWhile_gt hs p.1 (runsAux_fst_mem fuel _ hlen p hp)

theorem runs_sum (l : List ℚ) : ((runs l).map Prod.snd).sum = l.length :=
  runsAux_sum l.length l le_rfl

theorem runs_snd_count {l : List ℚ} (hs : l.Sorted (· ≤ ·)) :
    ∀ p ∈ runs l, p.2 = l.count p.1 :=
  runsAux_snd_count l.length l le_rfl hs

theorem runs_fst_mem {l : List ℚ} : ∀ p ∈ runs l, p.1 ∈ l :=
  runsAux_fst_mem l.length l le_rfl

theorem runs_mem_count {l : List ℚ} (hs : l.Sorted (· ≤ ·)) :
    ∀ v ∈ l, (v, l.count v) ∈ runs l :=
  runsAux_mem_count l.length l le_rfl hs

theorem runs_fst_pairwise {l : List ℚ} (hs : l.Sorted (· ≤ ·)) :
    ((runs l).map Prod.fst).Pairwise (· < ·) :=
  runsAux_fst_pairwise l.length l le_rfl hs

/-- C9: for every non-empty (sorted) buffer, `frequencyTable` returns the run
list, whose counts sum exactly to `size()` and whose `(value, count)` pairs
are in strictly ascending order of value (so the values are distinct). -/
theorem frequencyTable_spec (l : List ℚ) (hs : l.Sorted (· ≤ ·)) (h0 : l ≠ []) :
    frequencyTable l = .ok (runs l) ∧
    ((runs l).map Prod.snd).sum = l.length ∧
    ((runs l).map Prod.fst).Pairwise (· < ·) := by
  have h1 : requireSize 1 l = .ok () :=
    requireSize_ok h0 (by have := List.length_pos.mpr h0; omega)
  exact ⟨by simp [frequencyTable, h1, pure, Except.pure], runs_sum l,
    runs_fst_pairwise hs⟩

/-- Witness for C9 on the dataset {1, 1, 2}. -/
theorem frequencyTable_spec_witness :
    (([1, 1, 2] : List ℚ).Sorted (· ≤ ·) ∧ ([1, 1, 2] : List ℚ) ≠ []) ∧
    frequencyTable [1, 1, 2] = .ok (runs [1, 1, 2]) ∧
    ((runs ([1, 1, 2] : List ℚ)).map Prod.snd).sum = ([1, 1, 2] : List ℚ).length ∧
    ((runs ([1, 1, 2] : List ℚ)).map Prod.fst).Pairwise (· < ·) :=
  ⟨⟨by decide, by decide⟩, frequencyTable_spec [1, 1, 2] (by decide) (by decide)⟩

/-! Helper lemmas about the best-run-length fold of `modes`. -/

theorem foldl_best_le : ∀ (rs : List (ℚ × ℕ)) (b : ℕ),
    b ≤ rs.foldl (fun b p => if b < p.2 then p.2 else b) b ∧
    ∀ p ∈ rs, p.2 ≤ rs.foldl (fun b p => if b < p.2 then p.2 else b) b
  | [], b => ⟨le_rfl, by simp⟩
  | q :: rs, b => by
    have ih := foldl_best_le rs (if b < q.2 then q.2 else b)
    rw [List.foldl_cons]
    constructor
    · exact le_trans (by split <;> omega) ih.1
    · intro p hp
      rcases List.mem_cons.mp hp with rfl | hp'
      · exact le_trans (by split <;> omega) ih.1
      · exact ih.2 p hp'

theorem foldl_best_eq : ∀ (rs : List (ℚ × ℕ)) (b : ℕ),
    rs.foldl (fun b p => if b < p.2 then p.2 else b) b = b ∨
    ∃ p ∈ rs, rs.foldl (fun b p => if b < p.2 then p.2 else b) b = p.2
  | [], _ => .inl rfl
  | q :: rs, b => by
    rw [List.foldl_cons]
    rcases foldl_best_eq rs (if b < q.2 then q.2 else b) with h | ⟨p, hp, h⟩
    · by_cases hbq : b < q.2
      · right
        exact ⟨q, by simp, by rw [h, if_pos hbq]⟩
      · left
        rw [h, if_neg hbq]
    · right
      exact ⟨p, by simp [hp], h⟩

/-- C7: for every non-empty (sorted) buffer, `modes` returns the empty list
exactly when every value occurs once (maximum run length 1); otherwise it
returns, in strictly ascending order, exactly the values whose occurrence
count (run length) is maximal, which is then at least 2. -/
theorem modes_spec (l : List ℚ) (hs : l.Sorted (· ≤ ·)) (h0 : l ≠ []) :
    ∃ ms, modes l = .ok ms ∧
      (ms = [] ↔ ∀ v ∈ l, l.count v = 1) ∧
      (∀ v, v ∈ ms ↔ v ∈ l ∧ 2 ≤ l.count v ∧ ∀ w ∈ l, l.count w ≤ l.count v) ∧
      ms.Pairwise (· < ·) := by
  have h1 : requireSize 1 l = .ok () :=
    requireSize_ok h0 (by have := List.length_pos.mpr h0; omega)
  have hA : ∀ v ∈ l, l.count v ≤
      (runs l).foldl (fun b p => if b < p.2 then p.2 else b) 0 := by
    intro v hv
    exact (foldl_best_le (runs l) 0).2 (v, l.count v) (runs_mem_count hs v hv)
  have hB : ∃ v0 ∈ l, (runs l).foldl (fun b p => if b < p.2 then p.2 else b) 0 =
      l.count v0 := by
    rcases foldl_best_eq (runs l) 0 with h | ⟨p, hp, h⟩
    · obtain ⟨y, hy⟩ := List.exists_mem_of_ne_nil l h0
      have h1y : 0 < l.count y := List.count_pos_iff.mpr hy
      have := hA y hy
      omega
    · exact ⟨p.1, runs_fst_mem p hp, by rw [h, runs_snd_count hs p hp]⟩
  by_cases hb1 : (runs l).foldl (fun b p => if b < p.2 then p.2 else b) 0 ≤ 1
  · refine ⟨[], ?_, ?_, ?_, by simp⟩
    · simp only [modes, h1, ok_bind, if_pos hb1]
      rfl
    · constructor
      · intro _ v hv
        have h2 := hA v hv
        have h3 := List.count_pos_iff.mpr hv
        omega
      · intro _
        rfl
    · intro v
      refine ⟨fun h => absurd h (by simp), fun ⟨hv, h2, _⟩ => ?_⟩
      have := hA v hv
      omega
  · obtain ⟨v0, hv0, hbv0⟩ := hB
    refine ⟨((runs l).filter (fun p =>
      p.2 == (runs l).foldl (fun b p => if b < p.2 then p.2 else b) 0)).map Prod.fst,
      ?_, ?_, ?_, ?_⟩
    · simp only [modes, h1, ok_bind, if_neg hb1]
      rfl
    · have hv0mem : v0 ∈ ((runs l).filter (fun p =>
          p.2 == (runs l).foldl (fun b p => if b < p.2 then p.2 else b) 0)).map
            Prod.fst :=
        List.mem_map.mpr ⟨(v0, l.count v0),
          List.mem_filter.mpr ⟨runs_mem_count hs v0 hv0, by simp [hbv0]⟩, rfl⟩
      constructor
      · intro hemp
        rw [hemp] at hv0mem
        simp at hv0mem
      · intro hall
        have := hall v0 hv0
        omega
    · intro v
      constructor
      · intro hv
        rcases List.mem_map.mp hv with ⟨p, hpf, rfl⟩
        rcases List.mem_filter.mp hpf with ⟨hp, hpb⟩
        have hcnt := runs_snd_count hs p hp
        have hmem := runs_fst_mem p hp
        have hpb' : p.2 = (runs l).foldl (fun b p => if b < p.2 then p.2 else b) 0 := by
          simpa using hpb
        refine ⟨hmem, by omega, fun w hw => ?_⟩
        have := hA w hw
        omega
      · rintro ⟨hv, h2, hmax⟩
        have hveq : l.count v =
            (runs l).foldl (fun b p => if b < p.2 then p.2 else b) 0 :=
          le_antisymm (hA v hv) (by rw [hbv0]; exact hmax v0 hv0)
        exact List.mem_map.mpr ⟨(v, l.count v),
          List.mem_filter.mpr ⟨runs_mem_count hs v hv, by simp [hveq]⟩, rfl⟩
    · exact List.Pairwise.sublist ((List.filter_sublist _).map Prod.fst)
        (runs_fst_pairwise hs)

/-- Witness for C7 on the dataset {1, 1, 2, 3, 3}. -/
theorem modes_spec_witness :
    (([1, 1, 2, 3, 3] : List ℚ).Sorted (· ≤ ·) ∧ ([1, 1, 2, 3, 3] : List ℚ) ≠ []) ∧
    ∃ ms, modes [1, 1, 2, 3, 3] = .ok ms ∧
      (ms = [] ↔ ∀ v ∈ ([1, 1, 2, 3, 3] : List ℚ), ([1, 1, 2, 3, 3] : List ℚ).count v = 1) ∧
      (∀ v, v ∈ ms ↔ v ∈ ([1, 1, 2, 3, 3] : List ℚ) ∧
        2 ≤ ([1, 1, 2, 3, 3] : List ℚ).count v ∧
        ∀ w ∈ ([1, 1, 2, 3, 3] : List ℚ),
          ([1, 1, 2, 3, 3] : List ℚ).count w ≤ ([1, 1, 2, 3, 3] : List ℚ).count v) ∧
      ms.Pairwise (· < ·) :=
  ⟨⟨by decide, by decide⟩, modes_spec [1, 1, 2, 3, 3] (by decide) (by decide)⟩

/-! Helper lemmas for the binary search and the sorted-insert invariant. -/

theorem getDq {l : List ℚ} {i : ℕ} (h : i < l.length) : l.getD i 0 = l[i] := by
  simp [List.getD_eq_getElem?_getD, List.getElem?_eq_getElem h]

theorem sorted_getD_le {l : List ℚ} (hs : l.Sorted (· ≤ ·)) {i j : ℕ}
    (hij : i ≤ j) (hj : j < l.length) : l.getD i 0 ≤ l.getD j 0 := by
  rcases Nat.lt_or_ge i j with hlt | hge
  · have hi : i < l.length := lt_trans hlt hj
    rw [getDq hi, getDq hj]
    exact List.pairwise_iff_getElem.mp hs i j hi hj hlt
  · have : i = j := le_antisymm hij hge
    subst this
    rfl

theorem lbAux_spec {l : List ℚ} {x : ℚ} (hs : l.Sorted (· ≤ ·)) :
    ∀ (fuel L R : ℕ), R - L ≤ fuel → L ≤ R → R ≤ l.length →
    (∀ i, i < L → l.getD i 0 < x) →
    (∀ i, R ≤ i → i < l.length → x ≤ l.getD i 0) →
    L ≤ lbAux l x fuel L R ∧ lbAux l x fuel L R ≤ R ∧
    (∀ i, i < lbAux l x fuel L R → l.getD i 0 < x) ∧
    (∀ i, lbAux l x fuel L R ≤ i → i < l.length → x ≤ l.getD i 0)
  | 0, L, R, hf, hLR, hR, hlo, hhi => by
    have : L = R := by omega
    subst this
    exact ⟨le_rfl, le_rfl, hlo, hhi⟩
  | fuel + 1, L, R, hf, hLR, hR, hlo, hhi => by
    by_cases hLR' : L < R
    · simp only [lbAux, if_pos hLR']
      have hMR : (L + R) / 2 < R := by omega
      have hLM : L ≤ (L + R) / 2 := by omega
      have hMl : (L + R) / 2 < l.length := by omega
      by_cases hM : l.getD ((L + R) / 2) 0 < x
      · rw [if_pos hM]
        have ih := lbAux_spec hs fuel ((L + R) / 2 + 1) R (by omega) (by omega) hR
          (fun i hi => lt_of_le_of_lt (sorted_getD_le hs (by omega) hMl) hM) hhi
        exact ⟨le_trans (by omega) ih.1, ih.2.1, ih.2.2.1, ih.2.2.2⟩
      · rw [if_neg hM]
        have ih := lbAux_spec hs fuel L ((L + R) / 2) (by omega) (by omega) (by omega)
          hlo (fun i hMi hil => le_trans (le_of_not_lt hM) (sorted_getD_le hs hMi hil))
        exact ⟨ih.1, le_trans ih.2.1 (by omega), ih.2.2.1, ih.2.2.2⟩
    · simp only [lbAux, if_neg hLR']
      exact ⟨le_rfl, hLR, hlo, fun i hLi hil => hhi i (by omega) hil⟩

theorem lowerBound_spec {l : List ℚ} {x : ℚ} (hs : l.Sorted (· ≤ ·)) :
    lowerBound l x ≤ l.length ∧
    (∀ i, i < lowerBound l x → l.getD i 0 < x) ∧
    (∀ i, lowerBound l x ≤ i → i < l.length → x ≤ l.getD i 0) := by
  have h := lbAux_spec (x := x) hs l.length 0 l.length (by omega) (by omega) le_rfl
    (fun i hi => absurd hi (by omega)) (fun i hRi hil => absurd hil (by omega))
  exact ⟨h.2.1, h.2.2.1, h.2.2.2⟩

theorem insertAtList_sorted {l : List ℚ} {x : ℚ} {p : ℕ} (hs : l.Sorted (· ≤ ·))
    (hp : p ≤ l.length)
    (hlo : ∀ i, i < p → l.getD i 0 < x)
    (hhi : ∀ i, p ≤ i → i < l.length → x ≤ l.getD i 0) :
    (insertAtList l p x).Sorted (· ≤ ·) := by
  have hdrop : ∀ y ∈ l.drop p, x ≤ y := by
    intro y hy
    rcases List.mem_iff_getElem.mp hy with ⟨j, hj, rfl⟩
    have hjl : p + j < l.length := by
      rw [List.length_drop] at hj
      omega
    have h := hhi (p + j) (by omega) hjl
    rw [getDq hjl] at h
    rwa [List.getElem_drop]
  have htake : ∀ y ∈ l.take p, y < x := by
    intro y hy
    rcases List.mem_iff_getElem.mp hy with ⟨i, hi, rfl⟩
    have hip : i < p := by
      rw [List.length_take] at hi
      omega
    have hil : i < l.length := by omega
    have h := hlo i hip
    rw [getDq hil] at h
    rwa [List.getElem_take]
  refine List.pairwise_append.mpr ⟨?_, ?_, ?_⟩
  · exact List.Pairwise.sublist (List.take_sublist _ _) hs
  · exact List.Pairwise.cons hdrop (List.Pairwise.sublist (List.drop_sublist _ _) hs)
  · intro a ha b hb
    have hax : a < x := htake a ha
    rcases List.mem_cons.mp hb with rfl | hb'
    · exact le_of_lt hax
    · exact le_trans (le_of_lt hax) (hdrop b hb')

theorem insertAtList_length {l : List ℚ} {x : ℚ} {p : ℕ} (hp : p ≤ l.length) :
    (insertAtList l p x).length = l.length + 1 := by
  simp [insertAtList, List.length_take, List.length_drop]
  omega

theorem eraseAtList_sublist (l : List ℚ) (idx : ℕ) : List.Sublist (eraseAtList l idx) l := by
  have h1 : List.Sublist (l.drop (idx + 1)) (l.drop idx) := by
    have h2 : List.Sublist ((l.drop idx).drop 1) (l.drop idx) := List.drop_sublist _ _
    rwa [List.drop_drop] at h2
  have h3 : List.Sublist (l.take idx ++ l.drop (idx + 1)) (l.take idx ++ l.drop idx) :=
    List.Sublist.append_left h1 _
  rw [List.take_append_drop idx l] at h3
  exact h3

theorem eraseLoop_fst_sublist (v : ℚ) (pos : ℕ) : ∀ (c : ℕ) (l : List ℚ),
    List.Sublist (eraseLoop v pos l c).1 l
  | 0, l => List.Sublist.refl l
  | c + 1, l => by
    simp only [eraseLoop]
    by_cases h : pos < l.length ∧ l.getD pos 0 = v
    · rw [if_pos h]
      exact List.Sublist.trans (eraseLoop_fst_sublist v pos c (eraseAtList l pos))
        (eraseAtList_sublist l pos)
    · rw [if_neg h]

theorem growIfNeeded_data (b : Buffer) : (growIfNeeded b).data = b.data := by
  rw [growIfNeeded]
  split <;> rfl

theorem growIfNeeded_cap (b : Buffer) (h : b.data.length ≤ b.cap) :
    b.data.length < (growIfNeeded b).cap := by
  rw [growIfNeeded]
  split
  · next hlt => exact hlt
  · next hge =>
    show b.data.length < (if b.cap = 0 then 8 else b.cap * 2)
    split <;> omega

theorem applyOp_inv (b : Buffer) (op : Op)
    (h : b.data.Sorted (· ≤ ·) ∧ b.data.length ≤ b.cap) :
    (applyOp b op).data.Sorted (· ≤ ·) ∧
    (applyOp b op).data.length ≤ (applyOp b op).cap := by
  obtain ⟨hsort, hlen⟩ := h
  cases op with
  | opInsert x =>
    obtain ⟨hple, hlo, hhi⟩ := lowerBound_spec (x := x) hsort
    constructor
    · show (insertAtList (growIfNeeded b).data (lowerBound b.data x) x).Sorted (· ≤ ·)
      rw [growIfNeeded_data]
      exact insertAtList_sorted hsort hple hlo hhi
    · show (insertAtList (growIfNeeded b).data (lowerBound b.data x) x).length ≤
        (growIfNeeded b).cap
      rw [growIfNeeded_data, insertAtList_length hple]
      have := growIfNeeded_cap b hlen
      omega
  | opEraseValue v c =>
    have hsub := eraseLoop_fst_sublist v (lowerBound b.data v) c b.data
    exact ⟨List.Pairwise.sublist hsub hsort, le_trans hsub.length_le hlen⟩
  | opEraseAt i =>
    have hsub := eraseAtList_sublist b.data i
    exact ⟨List.Pairwise.sublist hsub hsort, le_trans hsub.length_le hlen⟩

theorem runOps_inv : ∀ (ops : List Op) (b : Buffer),
    b.data.Sorted (· ≤ ·) ∧ b.data.length ≤ b.cap →
    (runOps b ops).data.Sorted (· ≤ ·) ∧
    (runOps b ops).data.length ≤ (runOps b ops).cap
  | [], _, h => h
  | op :: ops, b, h => runOps_inv ops (applyOp b op) (applyOp_inv b op h)

/-- C1: after every valid sequence of `insert` (finite argument),
`eraseValue` (count at least 1) and `eraseAt` (in-range index) calls starting
from the empty buffer, the active elements are sorted in non-decreasing order
and `size() <= capacity()`. -/
theorem buffer_invariant (ops : List Op) (_hv : validOps Buffer.empty ops = true) :
    (runOps Buffer.empty ops).data.Sorted (· ≤ ·) ∧
    (runOps Buffer.empty ops).data.length ≤ (runOps Buffer.empty ops).cap :=
  runOps_inv ops Buffer.empty ⟨List.sorted_nil, le_rfl⟩

/-- Witness for C1 on a concrete call sequence exercising all three mutators. -/
theorem buffer_invariant_witness :
    validOps Buffer.empty
      [Op.opInsert 3, Op.opInsert 1, Op.opInsert 3, Op.opEraseValue 3 1,
        Op.opEraseAt 0] = true ∧
    ((runOps Buffer.empty
      [Op.opInsert 3, Op.opInsert 1, Op.opInsert 3, Op.opEraseValue 3 1,
        Op.opEraseAt 0]).data.Sorted (· ≤ ·) ∧
     (runOps Buffer.empty
      [Op.opInsert 3, Op.opInsert 1, Op.opInsert 3, Op.opEraseValue 3 1,
        Op.opEraseAt 0]).data.length ≤
      (runOps Buffer.empty
        [Op.opInsert 3, Op.opInsert 1, Op.opInsert 3, Op.opEraseValue 3 1,
          Op.opEraseAt 0]).cap) :=
  ⟨by decide, buffer_invariant _ (by decide)⟩

/-! Helper lemmas for the eraseValue claim. -/

theorem sorted_ge_split (v : ℚ) : ∀ (B : List ℚ), B.Sorted (· ≤ ·) →
    (∀ y ∈ B, v ≤ y) →
    ∃ C, B = List.replicate (B.count v) v ++ C ∧ ∀ y ∈ C, v < y
  | [], _, _ => ⟨[], by simp, by simp⟩
  | b :: B', hs, hge => by
    by_cases hbv : b = v
    · subst hbv
      obtain ⟨C, hC, hCgt⟩ := sorted_ge_split b B' hs.of_cons
        (fun y hy => hge y (by simp [hy]))
      refine ⟨C, ?_, hCgt⟩
      rw [List.count_cons_self, List.replicate_succ, List.cons_append]
      rw [← hC]
    · have hvb : v < b := lt_of_le_of_ne (hge b (by simp)) (fun h => hbv h.symm)
      have hnot : (b :: B').count v = 0 := List.count_eq_zero.mpr (fun hmem => by
        rcases List.mem_cons.mp hmem with h | h
        · exact hbv h.symm
        · exact absurd (List.rel_of_sorted_cons hs v h) (not_le.mpr hvb))
      refine ⟨b :: B', by rw [hnot]; simp, ?_⟩
      intro y hy
      rcases List.mem_cons.mp hy with rfl | hy'
      · exact hvb
      · exact lt_of_lt_of_le hvb (List.rel_of_sorted_cons hs y hy')

theorem getD_at_append (A : List ℚ) (y : ℚ) (C : List ℚ) :
    (A ++ y :: C).getD A.length 0 = y := by
  simp [List.getD_eq_getElem?_getD,
    List.getElem?_append_right (le_refl A.length)]

theorem eraseAtList_at_append : ∀ (A B : List ℚ),
    eraseAtList (A ++ B) A.length = A ++ B.tail
  | [], B => by simp [eraseAtList, List.drop_one]
  | a :: A, B => by
    have ih := eraseAtList_at_append A B
    simp only [eraseAtList, List.cons_append, List.length_cons, List.take_succ_cons,
      List.drop_succ_cons] at ih ⊢
    exact congrArg (a :: ·) ih

theorem eraseLoop_run (v : ℚ) (A C : List ℚ) (hC : ∀ y ∈ C, y ≠ v) :
    ∀ (c k : ℕ),
      eraseLoop v A.length (A ++ List.replicate k v ++ C) c =
        (A ++ List.replicate (k - Nat.min c k) v ++ C, Nat.min c k)
  | 0, k => by simp [eraseLoop]
  | c + 1, 0 => by
    cases C with
    | nil => simp [eraseLoop]
    | cons y C' =>
      have hy : y ≠ v := hC y (by simp)
      have hgd : (A ++ y :: C').getD A.length 0 = y := getD_at_append A y C'
      simp only [List.replicate_zero, List.nil_append, List.append_nil]
      have hm : Nat.min (c + 1) 0 = 0 := by
        rw [Nat.min_eq_min]
        omega
      rw [hm, Nat.zero_sub]
      simp only [eraseLoop, List.replicate_zero, List.nil_append]
      rw [if_neg (fun h => hy (hgd.symm.trans h.2))]
      simp
  | c + 1, k + 1 => by
    have hEq : A ++ List.replicate (k + 1) v ++ C =
        A ++ v :: (List.replicate k v ++ C) := by
      simp [List.replicate_succ, List.append_assoc]
    rw [hEq]
    have hcond : A.length < (A ++ v :: (List.replicate k v ++ C)).length ∧
        (A ++ v :: (List.replicate k v ++ C)).getD A.length 0 = v := by
      constructor
      · rw [List.length_append, List.length_cons]
        omega
      · exact getD_at_append A v _
    have hstep : eraseLoop v A.length (A ++ v :: (List.replicate k v ++ C)) (c + 1) =
        if A.length < (A ++ v :: (List.replicate k v ++ C)).length ∧
            (A ++ v :: (List.replicate k v ++ C)).getD A.length 0 = v then
          ((eraseLoop v A.length
              (eraseAtList (A ++ v :: (List.replicate k v ++ C)) A.length) c).1,
            (eraseLoop v A.length
              (eraseAtList (A ++ v :: (List.replicate k v ++ C)) A.length) c).2 + 1)
        else (A ++ v :: (List.replicate k v ++ C), 0) := rfl
    rw [hstep, if_pos hcond, eraseAtList_at_append A (v :: (List.replicate k v ++ C))]
    have htail : (v :: (List.replicate k v ++ C)).tail = List.replicate k v ++ C := rfl
    rw [htail, ← List.append_assoc, eraseLoop_run v A C hC c k]
    have h1 : Nat.min (c + 1) (k + 1) = Nat.min c k + 1 := by
      rw [Nat.min_eq_min, Nat.min_eq_min]
      omega
    rw [h1, Nat.succ_sub_succ]

/-- C6: for every sorted buffer, value `v` and `count >= 1`, `eraseValue`
removes exactly min(count, occurrences of v) elements equal to `v`, returns
that number (0 when `v` is absent), and leaves all other elements in place in
sorted order (their multiplicities are unchanged and the result is sorted). -/
theorem eraseValue_spec (l : List ℚ) (v : ℚ) (count : ℕ) (hs : l.Sorted (· ≤ ·))
    (_hc : 1 ≤ count) :
    (eraseValueList l v count).2 = Nat.min count (l.count v) ∧
    (eraseValueList l v count).1.Sorted (· ≤ ·) ∧
    (eraseValueList l v count).1.count v = l.count v - Nat.min count (l.count v) ∧
    ∀ w, w ≠ v → (eraseValueList l v count).1.count w = l.count w := by
  obtain ⟨hple, hlo, hhi⟩ := lowerBound_spec (x := v) hs
  have hA : ∀ y ∈ l.take (lowerBound l v), y < v := by
    intro y hy
    rcases List.mem_iff_getElem.mp hy with ⟨i, hi, rfl⟩
    have hip : i < lowerBound l v := by
      rw [List.length_take] at hi
      omega
    have hil : i < l.length := by omega
    have h := hlo i hip
    rw [getDq hil] at h
    rwa [List.getElem_take]
  have hBsorted : (l.drop (lowerBound l v)).Sorted (· ≤ ·) :=
    List.Pairwise.sublist (List.drop_sublist _ _) hs
  have hBge : ∀ y ∈ l.drop (lowerBound l v), v ≤ y := by
    intro y hy
    rcases List.mem_iff_getElem.mp hy with ⟨j, hj, rfl⟩
    have hjl : lowerBound l v + j < l.length := by
      rw [List.length_drop] at hj
      omega
    have h := hhi (lowerBound l v + j) (by omega) hjl
    rw [getDq hjl] at h
    rwa [List.getElem_drop]
  obtain ⟨C, hBC, hCgt⟩ := sorted_ge_split v (l.drop (lowerBound l v)) hBsorted hBge
  have hcntA : (l.take (lowerBound l v)).count v = 0 :=
    List.count_eq_zero.mpr (fun hmem => lt_irrefl v (hA v hmem))
  have hsplit : l.take (lowerBound l v) ++ l.drop (lowerBound l v) = l :=
    List.take_append_drop _ l
  have hcount : l.count v = (l.drop (lowerBound l v)).count v := by
    conv_lhs => rw [← hsplit]
    rw [List.count_append, hcntA, Nat.zero_add]
  have hdecomp : l = l.take (lowerBound l v) ++ List.replicate (l.count v) v ++ C := by
    have h : List.replicate (l.count v) v ++ C = l.drop (lowerBound l v) := by
      rw [hcount]
      exact hBC.symm
    rw [List.append_assoc, h, hsplit]
  have hCne : ∀ y ∈ C, y ≠ v := fun y hy => ne_of_gt (hCgt y hy)
  have hplen : lowerBound l v = (l.take (lowerBound l v)).length := by
    rw [List.length_take]
    omega
  have hrun : eraseValueList l v count =
      (l.take (lowerBound l v) ++
        List.replicate (l.count v - Nat.min count (l.count v)) v ++ C,
        Nat.min count (l.count v)) := by
    rw [show eraseValueList l v count = eraseLoop v (l.take (lowerBound l v)).length
        (l.take (lowerBound l v) ++ List.replicate (l.count v) v ++ C) count from by
      rw [← hplen, ← hdecomp]
      rfl]
    exact eraseLoop_run v (l.take (lowerBound l v)) C hCne count (l.count v)
  have hcntC : C.count v = 0 := List.count_eq_zero.mpr (fun hmem => hCne v hmem rfl)
  refine ⟨by rw [hrun], ?_, ?_, ?_⟩
  · rw [hrun]
    have hsub : List.Sublist
        (l.take (lowerBound l v) ++
          List.replicate (l.count v - Nat.min count (l.count v)) v ++ C) l := by
      conv_rhs => rw [hdecomp]
      exact List.Sublist.append_right
        (List.Sublist.append_left
          ((List.replicate_sublist_replicate v).mpr (by omega)) _) C
    exact List.Pairwise.sublist hsub hs
  · rw [hrun]
    simp [List.count_append, hcntA, hcntC]
  · intro w hw
    rw [hrun]
    conv_rhs => rw [hdecomp]
    have hww : ¬(v = w) := fun h => hw h.symm
    simp [List.count_append, List.count_replicate, hww]

/-- Witness for C6 on the sorted buffer {1, 2, 2, 2, 3} with v = 2, count = 2. -/
theorem eraseValue_spec_witness :
    (([1, 2, 2, 2, 3] : List ℚ).Sorted (· ≤ ·) ∧ 1 ≤ 2) ∧
    (eraseValueList [1, 2, 2, 2, 3] 2 2).2 =
      Nat.min 2 (([1, 2, 2, 2, 3] : List ℚ).count 2) ∧
    (eraseValueList [1, 2, 2, 2, 3] 2 2).1.Sorted (· ≤ ·) ∧
    (eraseValueList [1, 2, 2, 2, 3] 2 2).1.count 2 =
      ([1, 2, 2, 2, 3] : List ℚ).count 2 -
        Nat.min 2 (([1, 2, 2, 2, 3] : List ℚ).count 2) ∧
    ∀ w, w ≠ 2 → (eraseValueList [1, 2, 2, 2, 3] 2 2).1.count w =
      ([1, 2, 2, 2, 3] : List ℚ).count w :=
  ⟨⟨by decide, by decide⟩, eraseValue_spec [1, 2, 2, 2, 3] 2 2 (by decide) (by decide)⟩

end StatsArray
